import Mathlib

/-!
Verification development for the markforge repository: a document-to-markdown
batch converter.  We shallowly embed the three source files
(`cli_converter.py`, `gui_converter.py`, `cleanup.py`): pure fragments become
Lean functions, filesystem effects become explicit event traces, and the
external conversion libraries (`marker`, `markitdown`) become oracles passed
as parameters.
-/

namespace Markforge

/-- A filesystem path, as its list of components. -/
abbrev Path := List String

/-! ## Python `pathlib` name splitting

`pathlib.PurePath.stem` and `.suffix` split a file name at its last dot,
except when the dot is the first character or the last character of the name
(then the suffix is empty). -/

/-- Split a character list at its last `'.'`: `some (before, fromDot)` where
`fromDot` starts with the last dot, or `none` when there is no dot. -/
def splitAtLastDot : List Char → Option (List Char × List Char)
  | [] => none
  | c :: rest =>
      match splitAtLastDot rest with
      | some (s, e) => some (c :: s, e)
      | none => if c = '.' then some ([], '.' :: rest) else none

/-- Model of Python `pathlib` extension splitting: the suffix is `name[i:]`
for `i` the index of the last dot, provided `0 < i < len - 1`; otherwise the
suffix is empty. -/
def splitExt (name : String) : String × String :=
  match splitAtLastDot name.toList with
  | some (s, e) =>
      if 0 < s.length ∧ 2 ≤ e.length then (String.mk s, String.mk e)
      else (name, "")
  | none => (name, "")

/-- Model of Python `Path(name).stem`. -/
def stemOf (name : String) : String := (splitExt name).1

/-- Model of Python `Path(name).suffix`. -/
def suffixOf (name : String) : String := (splitExt name).2

/-! ## `split_pdf` (cli_converter.py lines 40-62, gui_converter.py 64-84)

The Python loop is `for i in range(0, total_pages, chunk_size)`.  We model
`range(0, stop, step)` faithfully as the list of the loop counter's values;
`range` with step 0 raises `ValueError`, which the surrounding `try` turns
into returning `[input_path]`. -/

/-- The values of Python `range(start, stop, step)` for a positive step. -/
def rangeStep (start stop step : Nat) : List Nat :=
  if h : 0 < step ∧ start < stop then
    start :: rangeStep (start + step) stop step
  else
    []
termination_by stop - start
decreasing_by
  obtain ⟨h1, h2⟩ := h
  omega

/-- One chunk produced by `split_pdf`: the first page copied, one past the
last page copied (`end_page` in the source), and the temp file name. -/
structure Chunk where
  fromPage : Nat
  endPage : Nat
  name : String
  deriving DecidableEq

/-- The chunk file name `f"{stem}_temp_chunk_{k}.pdf"` (the source computes
the index as `i // chunk_size` for `i` the first page of the chunk). -/
def chunkName (stem : String) (k : Nat) : String :=
  stem ++ "_temp_chunk_" ++ toString k ++ ".pdf"

/-- Result of `split_pdf`: either the one-element list holding the original
input path, or the list of temporary chunks. -/
inductive SplitResult where
  | original : SplitResult
  | chunks : List Chunk → SplitResult
  deriving DecidableEq

/-- Model of `split_pdf(input_path, chunk_size)`.  If the document fits in
one chunk the original path is returned and no temp file is created.  A zero
chunk size makes `range` raise, which the `except` clause turns into
returning the original path.  Otherwise one chunk is saved per loop
iteration, covering pages `i` to `min(i + chunk_size, total_pages) - 1`. -/
def split_pdf (stem : String) (total_pages chunk_size : Nat) : SplitResult :=
  if total_pages ≤ chunk_size then .original
  else if chunk_size = 0 then .original
  else .chunks ((rangeStep 0 total_pages chunk_size).map (fun i =>
    ⟨i, min (i + chunk_size) total_pages, chunkName stem (i / chunk_size)⟩))

/-- The names of the temporary files `split_pdf` creates. -/
def split_tempFiles (stem : String) (total_pages chunk_size : Nat) : List String :=
  match split_pdf stem total_pages chunk_size with
  | .original => []
  | .chunks l => l.map (fun c => c.name)

/-- The list of files `convert_pdf_safely` iterates over: the original input
path when no split happened, else the chunk paths (each saved next to the
input, `input_path.parent / chunk_name`). -/
def filesToProcess (parent : Path) (fileName : String)
    (total_pages chunk_size : Nat) : List Path :=
  match split_pdf (stemOf fileName) total_pages chunk_size with
  | .original => [parent ++ [fileName]]
  | .chunks l => l.map (fun c => parent ++ [c.name])

/-! ## `convert_pdf_safely` (cli_converter.py 65-109, gui_converter.py 86-119) -/

/-- Result of one `convert_single_pdf` call: the markdown text and the
extracted images' original file names, or an exception. -/
inductive ConvResult where
  | ok (text : String) (images : List String)
  | err

/-- The observable effects of `convert_pdf_safely`: the returned markdown
string, the image files saved, and the files removed by the `finally`
blocks. -/
structure ConvOutput where
  markdown : String
  saved : List Path
  deleted : List Path
  deriving DecidableEq

/-- Python `str.lower()` (ASCII model): lower-case each character. -/
def lowerStr (s : String) : String := String.mk (s.toList.map Char.toLower)

/-- `doc_folder_name = input_path.stem.replace(" ", "_")`: replacing a
one-character pattern by a one-character replacement is exactly a character
map. -/
def docFolderName (stem : String) : String :=
  String.mk (stem.toList.map (fun c => if c = ' ' then '_' else c))

/-- `f"chunk_{i}_{original_filename}"`. -/
def uniqueName (i : Nat) (orig : String) : String :=
  "chunk_" ++ toString i ++ "_" ++ orig

/-- `f"images/{doc_folder_name}/{unique_name}"`. -/
def imageLink (docFolder : String) (i : Nat) (orig : String) : String :=
  "images/" ++ docFolder ++ "/" ++ uniqueName i orig

/-- The image loop of one chunk: each extracted file name is replaced in the
chunk's text by its relative link, in order (`str.replace` replaces every
occurrence). -/
def rewriteImages (docFolder : String) (i : Nat) (text : String)
    (images : List String) : String :=
  images.foldl (fun t orig => t.replace orig (imageLink docFolder i orig)) text

/-- The body of the `for i, current_file in enumerate(files_to_process)`
loop: on success the rewritten text (plus two newlines) is appended and the
images are saved into the images directory; on an exception nothing is
appended; in both cases the `finally` block removes `current_file` unless it
is the input path. -/
def pdfChunkStep (docFolder : String) (imagesDir inputPath : Path)
    (res : Nat → ConvResult) (i : Nat) (f : Path) (acc : ConvOutput) : ConvOutput :=
  let acc2 :=
    match res i with
    | .ok text images =>
        { acc with
          markdown := acc.markdown ++ rewriteImages docFolder i text images ++ "\n\n"
          saved := acc.saved ++ images.map (fun orig => imagesDir ++ [uniqueName i orig]) }
    | .err => acc
  if f ≠ inputPath then { acc2 with deleted := acc2.deleted ++ [f] } else acc2

/-- The chunk loop of `convert_pdf_safely`, with the running index `i`. -/
def pdfLoop (docFolder : String) (imagesDir inputPath : Path)
    (res : Nat → ConvResult) : Nat → List Path → ConvOutput → ConvOutput
  | _, [], acc => acc
  | i, f :: rest, acc =>
      pdfLoop docFolder imagesDir inputPath res (i + 1) rest
        (pdfChunkStep docFolder imagesDir inputPath res i f acc)

/-- Model of `convert_pdf_safely(input_path, current_output_dir, ...)`.
`res i` is the oracle for the `convert_single_pdf` call on the `i`-th file
to process. -/
def convert_pdf_safely (parent : Path) (fileName : String) (outDir : Path)
    (total_pages chunk_size : Nat) (res : Nat → ConvResult) : ConvOutput :=
  pdfLoop (docFolderName (stemOf fileName))
    (outDir ++ ["images", docFolderName (stemOf fileName)])
    (parent ++ [fileName]) res 0
    (filesToProcess parent fileName total_pages chunk_size)
    ⟨"", [], []⟩

/-- Concatenation of a list of strings. -/
def concatList : List String → String
  | [] => ""
  | a :: rest => a ++ concatList rest

/-! ## `cleanup.py` -/

/-- The cleanup script's stray-chunk test (cleanup.py line 47):
`"_temp_chunk_" in file and file.endswith(".pdf")`. -/
def clean_pred (file : String) : Bool :=
  decide (("_temp_chunk_" : String).toList <:+: file.toList) &&
  decide ((".pdf" : String).toList <:+ file.toList)

/-! ## Directory processing (cli_converter.py 121-158, gui_converter.py 129-172)

`os.walk` is modelled by the list of visited directories (in walk order),
each with its relative path under the source root and its file names.
Filesystem effects are an event trace. -/

/-- One directory visited by `os.walk`: its path relative to the source root
and the plain file names in it. -/
structure WalkEntry where
  relDir : Path
  files : List String
  deriving DecidableEq

/-- Conversion outcomes supplied by the external libraries: the markdown
`convert_pdf_safely` returns for a PDF, the result of
`md_converter.convert` (`none` models the caught exception), and the result
of reading a `.txt` file (`none` models a caught read error). -/
structure Oracle where
  pdfResult : Path → String
  officeResult : Path → Option String
  txtRead : Path → Option String

/-- Which converter a file name is dispatched to. -/
inductive FileKind where
  | pdf | office | txt | other
  deriving DecidableEq

/-- The CLI extension dispatch (cli_converter.py 142-153):
`ext = input_file_path.suffix.lower()`. -/
def cli_dispatch (f : String) : FileKind :=
  let ext := lowerStr (suffixOf f)
  if ext = ".pdf" then .pdf
  else if ext = ".docx" ∨ ext = ".pptx" ∨ ext = ".xlsx" then .office
  else if ext = ".txt" then .txt
  else .other

/-- The GUI extension dispatch (gui_converter.py 154-159): it has no `.txt`
branch. -/
def gui_dispatch (f : String) : FileKind :=
  let ext := lowerStr (suffixOf f)
  if ext = ".pdf" then .pdf
  else if ext = ".docx" ∨ ext = ".pptx" ∨ ext = ".xlsx" then .office
  else .other

/-- The markdown content the CLI computes for one input file, `none`
modelling Python `None` (unrecognized extension, office error, or failed
text read). -/
def cli_convert (o : Oracle) (inPath : Path) (f : String) : Option String :=
  match cli_dispatch f with
  | .pdf => some (o.pdfResult inPath)
  | .office => o.officeResult inPath
  | .txt => o.txtRead inPath
  | .other => none

/-- The string the GUI writes for one input file: `markdown_content if
markdown_content else ""`.  A `.txt` or unrecognized file keeps the default
empty string. -/
def gui_content (o : Oracle) (inPath : Path) (f : String) : String :=
  match gui_dispatch f with
  | .pdf => o.pdfResult inPath
  | .office => (o.officeResult inPath).getD ""
  | .txt => ""
  | .other => ""

/-- Filesystem events of a run: `os.makedirs`, writing an output file, and
the CLI's skip of an already-existing output. -/
inductive FsEvent where
  | mkdir (p : Path)
  | write (p : Path) (content : String)
  | skip (p : Path)
  deriving DecidableEq

/-- The paths of the files written in a trace. -/
def writtenPaths (tr : List FsEvent) : List Path :=
  tr.filterMap (fun e =>
    match e with
    | .write p _ => some p
    | _ => none)

/-- `output_file_name = f"{input_file_path.stem}.md"`. -/
def outName (f : String) : String := stemOf f ++ ".md"

/-- Processing of one file by the CLI (cli_converter.py 131-158): skip when
the output path already exists (on disk before the run, or written earlier
in this run); otherwise convert and write only truthy content (`if
markdown_content:` rejects both `None` and the empty string). -/
def cli_fileStep (source dest : Path) (existing : List Path) (o : Oracle)
    (relDir : Path) (tr : List FsEvent) (f : String) : List FsEvent :=
  let outPath := (dest ++ relDir) ++ [outName f]
  if outPath ∈ existing ∨ outPath ∈ writtenPaths tr then
    tr ++ [.skip outPath]
  else
    match cli_convert o ((source ++ relDir) ++ [f]) f with
    | some c => if c = "" then tr else tr ++ [.write outPath c]
    | none => tr

/-- One directory of the CLI walk: `os.makedirs(current_dest_dir,
exist_ok=True)` then the file loop. -/
def cli_dirStep (source dest : Path) (existing : List Path) (o : Oracle)
    (tr : List FsEvent) (e : WalkEntry) : List FsEvent :=
  (e.files).foldl (cli_fileStep source dest existing o e.relDir)
    (tr ++ [.mkdir (dest ++ e.relDir)])

/-- Model of `process_directory(source_root, dest_root, ...)`. -/
def cli_run (source dest : Path) (existing : List Path) (o : Oracle)
    (walk : List WalkEntry) : List FsEvent :=
  walk.foldl (cli_dirStep source dest existing o) []

/-- Processing of one file by the GUI (gui_converter.py 142-172): the
overwrite check is commented out and the output is saved regardless of
content. -/
def gui_fileStep (source dest : Path) (o : Oracle) (relDir : Path)
    (tr : List FsEvent) (f : String) : List FsEvent :=
  tr ++ [.write ((dest ++ relDir) ++ [outName f])
    (gui_content o ((source ++ relDir) ++ [f]) f)]

/-- One directory of the GUI walk. -/
def gui_dirStep (source dest : Path) (o : Oracle)
    (tr : List FsEvent) (e : WalkEntry) : List FsEvent :=
  (e.files).foldl (gui_fileStep source dest o e.relDir)
    (tr ++ [.mkdir (dest ++ e.relDir)])

/-- Model of `process_logic(source_root, dest_root, ...)`. -/
def gui_run (source dest : Path) (o : Oracle) (walk : List WalkEntry) :
    List FsEvent :=
  walk.foldl (gui_dirStep source dest o) []

/-- The mirrored output path of every input file of the walk, in order. -/
def allOutPaths (dest : Path) (walk : List WalkEntry) : List Path :=
  (walk.map (fun e => e.files.map (fun f => (dest ++ e.relDir) ++ [outName f]))).flatten

/-- A concrete oracle for counterexamples: office conversion raises and
text files read as `"hello"`. -/
def oracle0 : Oracle :=
  ⟨fun _ => "", fun _ => none, fun _ => some "hello"⟩

/-- A concrete oracle for counterexamples: text files read as the empty
string (an empty `.txt` input). -/
def oracleEmptyTxt : Oracle :=
  ⟨fun _ => "", fun _ => none, fun _ => some ""⟩

/-! ## Claim statements (as `Prop`-valued definitions, so the witnesses can
restate them compactly) -/

/-- The full correctness property of `split_pdf` on documents that need
splitting: chunk count, per-chunk page range and file name, bounded chunk
size, partition of the pages, and ascending page order. -/
def SplitChunksSpec (stem : String) (total cs : Nat) : Prop :=
  ∃ l, split_pdf stem total cs = SplitResult.chunks l ∧
    l.length = (total + cs - 1) / cs ∧
    (∀ k (hk : k < l.length),
      l[k].fromPage = k * cs ∧
      l[k].endPage = min ((k + 1) * cs) total ∧
      l[k].name = chunkName stem k ∧
      l[k].endPage - l[k].fromPage ≤ cs) ∧
    (∀ p, p < total → ∃! k, k < l.length ∧ k * cs ≤ p ∧ p < min ((k + 1) * cs) total) ∧
    (∀ k1 k2 (h1 : k1 < l.length) (h2 : k2 < l.length), k1 < k2 →
      l[k1].fromPage < l[k2].fromPage)

/-- The no-split and determinism property of `split_pdf`: when the document
fits in one chunk the original path is the only file to process and no temp
file is created; and the split of a fixed document with a fixed chunk size
is uniquely determined. -/
def SplitSkipSpec (parent : Path) (fileName : String) (total cs : Nat) : Prop :=
  split_pdf (stemOf fileName) total cs = SplitResult.original ∧
  split_tempFiles (stemOf fileName) total cs = [] ∧
  filesToProcess parent fileName total cs = [parent ++ [fileName]] ∧
  (∀ r1 r2 : SplitResult, split_pdf (stemOf fileName) total cs = r1 →
    split_pdf (stemOf fileName) total cs = r2 → r1 = r2)

/-- The temp-file lifecycle property: every chunk name matches the cleanup
script's stray-chunk predicate, and after a split the `finally` blocks
delete exactly the files processed — all of the temporary chunks — whatever
the per-chunk conversion outcomes are. -/
def TempCleanupSpec (parent outDir : Path) (fileName : String) (total cs : Nat) : Prop :=
  (∀ name ∈ split_tempFiles (stemOf fileName) total cs, clean_pred name = true) ∧
  (∀ res : Nat → ConvResult,
    (convert_pdf_safely parent fileName outDir total cs res).deleted =
      filesToProcess parent fileName total cs)

/-- The walk of the input tree visits every directory — and so creates its
mirror under the destination root — no matter what the converters return
for the other files: conversion failures are values of the oracle, never a
stop of the loop. -/
def WalkContinuesSpec : Prop :=
  ∀ (source dest : Path) (existing : List Path) (o : Oracle)
    (walk : List WalkEntry) (e : WalkEntry), e ∈ walk →
      FsEvent.mkdir (dest ++ e.relDir) ∈ cli_run source dest existing o walk ∧
      FsEvent.mkdir (dest ++ e.relDir) ∈ gui_run source dest o walk

/-- A concrete conversion-result oracle for counterexamples: every chunk
converts to the text `"see x.png"` with one extracted image `x.png`. -/
def resOneImage : Nat → ConvResult := fun _ => .ok "see x.png" ["x.png"]

/-- Every write into a directory happens after that directory's `mkdir`:
each written path's parent was created at an earlier position of the
trace. -/
def MkdirBeforeWrites (tr : List FsEvent) : Prop :=
  ∀ p c, FsEvent.write p c ∈ tr →
    ∃ t1 t2, tr = t1 ++ FsEvent.mkdir p.dropLast :: t2 ∧ FsEvent.write p c ∈ t2

/-- The mirrored-output property of the two pipelines.  The GUI writes
exactly one `.md` per input file, at the input's relative path with the
extension replaced (in walk order).  The CLI writes only at such mirrored
paths, only non-empty converted content, and never over an existing output;
conversely, when the mirrored output paths are distinct and fresh, every
input file whose conversion yields non-empty content gets its output
written. -/
def MirroredOutputsSpec (source dest : Path) (existing : List Path) (o : Oracle)
    (walk : List WalkEntry) : Prop :=
  writtenPaths (gui_run source dest o walk) = allOutPaths dest walk ∧
  (∀ p c, FsEvent.write p c ∈ cli_run source dest existing o walk →
    ∃ e ∈ walk, ∃ f ∈ e.files, p = (dest ++ e.relDir) ++ [outName f] ∧
      cli_convert o ((source ++ e.relDir) ++ [f]) f = some c ∧ c ≠ "" ∧ p ∉ existing) ∧
  ((allOutPaths dest walk).Nodup →
    ∀ e ∈ walk, ∀ f ∈ e.files,
      (dest ++ e.relDir) ++ [outName f] ∉ existing →
      ∀ c, cli_convert o ((source ++ e.relDir) ++ [f]) f = some c → c ≠ "" →
        FsEvent.write ((dest ++ e.relDir) ++ [outName f]) c ∈
          cli_run source dest existing o walk)

/-- The output tree mirrors the input tree, for both pipelines: every
visited directory's mirror is created; every written file's parent
directory was created earlier in the trace; and that parent is the
destination mirror of the relative path of some visited input directory. -/
def MirrorTreeSpec (source dest : Path) (existing : List Path) (o : Oracle)
    (walk : List WalkEntry) : Prop :=
  (∀ e ∈ walk, FsEvent.mkdir (dest ++ e.relDir) ∈ cli_run source dest existing o walk ∧
    FsEvent.mkdir (dest ++ e.relDir) ∈ gui_run source dest o walk) ∧
  MkdirBeforeWrites (cli_run source dest existing o walk) ∧
  MkdirBeforeWrites (gui_run source dest o walk) ∧
  (∀ p c, FsEvent.write p c ∈ cli_run source dest existing o walk →
    ∃ e ∈ walk, p.dropLast = dest ++ e.relDir) ∧
  (∀ p c, FsEvent.write p c ∈ gui_run source dest o walk →
    ∃ e ∈ walk, p.dropLast = dest ++ e.relDir)

end Markforge

namespace Markforge

/-! ## String helpers -/

theorem string_mk_append (l1 l2 : List Char) :
    String.mk (l1 ++ l2) = String.mk l1 ++ String.mk l2 := rfl

theorem string_append_empty (s : String) : s ++ "" = s := by
  cases s with
  | mk data => exact congrArg String.mk (List.append_nil data)

theorem string_toList_append (s t : String) :
    (s ++ t).toList = s.toList ++ t.toList := rfl

/-- `splitAtLastDot` splits the list: the two parts concatenate back, and the
second part starts with a dot. -/
theorem splitAtLastDot_spec (cs : List Char) (s e : List Char)
    (h : splitAtLastDot cs = some (s, e)) :
    s ++ e = cs ∧ ∃ r, e = '.' :: r := by
  induction cs generalizing s e with
  | nil => simp [splitAtLastDot] at h
  | cons c rest ih =>
      unfold splitAtLastDot at h
      cases hrec : splitAtLastDot rest with
      | some p =>
          rw [hrec] at h
          obtain ⟨s0, e0⟩ := p
          simp at h
          obtain ⟨hs, he⟩ := h
          obtain ⟨hcat, hr⟩ := ih s0 e0 hrec
          subst hs he
          exact ⟨by simp [← hcat], hr⟩
      | none =>
          rw [hrec] at h
          by_cases hc : c = '.'
          · rw [if_pos hc] at h
            simp at h
            obtain ⟨hs, he⟩ := h
            subst hs he
            exact ⟨by simp [hc], rest, rfl⟩
          · rw [if_neg hc] at h
            simp at h

/-- The stem and the suffix concatenate back to the file name. -/
theorem stem_append_suffix (name : String) :
    stemOf name ++ suffixOf name = name := by
  unfold stemOf suffixOf splitExt
  cases h : splitAtLastDot name.toList with
  | none => exact string_append_empty name
  | some p =>
      obtain ⟨s, e⟩ := p
      dsimp only
      by_cases hcond : 0 < s.length ∧ 2 ≤ e.length
      · rw [if_pos hcond]
        obtain ⟨hcat, _⟩ := splitAtLastDot_spec name.toList s e h
        calc String.mk s ++ String.mk e = String.mk (s ++ e) := rfl
          _ = String.mk name.toList := by rw [hcat]
          _ = name := rfl
      · rw [if_neg hcond]
        exact string_append_empty name

/-- The suffix is empty or starts with a dot. -/
theorem suffixOf_empty_or_dot (name : String) :
    suffixOf name = "" ∨ ∃ r, (suffixOf name).toList = '.' :: r := by
  unfold suffixOf splitExt
  cases h : splitAtLastDot name.toList with
  | none => left; rfl
  | some p =>
      obtain ⟨s, e⟩ := p
      dsimp only
      by_cases hcond : 0 < s.length ∧ 2 ≤ e.length
      · rw [if_pos hcond]
        obtain ⟨_, r, hr⟩ := splitAtLastDot_spec name.toList s e h
        right
        exact ⟨r, by simp [hr]⟩
      · rw [if_neg hcond]
        left; rfl

/-- A chunk file name is never the input file's own name: the part after the
stem starts with an underscore while a suffix starts with a dot (or is
empty). -/
theorem chunkName_ne_fileName (fileName : String) (k : Nat) :
    chunkName (stemOf fileName) k ≠ fileName := by
  intro h
  have h2 : chunkName (stemOf fileName) k = stemOf fileName ++ suffixOf fileName :=
    h.trans (stem_append_suffix fileName).symm
  have hdata := congrArg String.toList h2
  simp only [chunkName, string_toList_append, List.append_assoc] at hdata
  have hlist := List.append_cancel_left hdata
  have hTC : ("_temp_chunk_" : String).toList = '_' :: ("temp_chunk_" : String).toList := by
    decide
  rw [hTC] at hlist
  rcases suffixOf_empty_or_dot fileName with he | ⟨r, hr⟩
  · rw [he] at hlist
    simp at hlist
  · rw [hr] at hlist
    injection hlist with h1 _
    exact absurd h1 (by decide)

/-! ## `rangeStep` closed form -/

theorem ceil_div_succ (n step : Nat) (hstep : 0 < step) (hn : 0 < n) :
    (n + step - 1) / step = (n - step + step - 1) / step + 1 := by
  rcases le_or_lt step n with hle | hlt
  · have e1 : n + step - 1 = (n - 1) + step := by omega
    have e2 : n - step + step - 1 = n - 1 := by omega
    rw [e1, e2, Nat.add_div_right _ hstep]
  · have e1 : n + step - 1 = (n - 1) + step := by omega
    have e2 : n - step = 0 := by omega
    rw [e1, Nat.add_div_right _ hstep, e2]
    have h1 : (n - 1) / step = 0 := Nat.div_eq_of_lt (by omega)
    have h2 : (0 + step - 1) / step = 0 := Nat.div_eq_of_lt (by omega)
    rw [h1, h2]

theorem rangeStep_closed (step : Nat) (hstep : 0 < step) :
    ∀ n s stop, stop - s ≤ n →
      rangeStep s stop step =
        (List.range ((stop - s + step - 1) / step)).map (fun j => s + j * step) := by
  intro n
  induction n with
  | zero =>
      intro s stop h
      rw [rangeStep, dif_neg (by omega)]
      have hz : (stop - s + step - 1) / step = 0 := Nat.div_eq_of_lt (by omega)
      rw [hz]
      rfl
  | succ n ih =>
      intro s stop h
      by_cases hlt : s < stop
      · rw [rangeStep, dif_pos ⟨hstep, hlt⟩]
        rw [ih (s + step) stop (by omega)]
        rw [ceil_div_succ (stop - s) step hstep (by omega)]
        rw [List.range_succ_eq_map, List.map_cons, List.map_map]
        rw [show stop - (s + step) = stop - s - step from by omega]
        simp only [List.cons.injEq]
        constructor
        · simp
        · apply List.map_congr_left
          intro j _
          simp only [Function.comp_apply, Nat.succ_mul, Nat.succ_eq_add_one]
          omega
      · rw [rangeStep, dif_neg (by omega)]
        have hz : (stop - s + step - 1) / step = 0 := Nat.div_eq_of_lt (by omega)
        rw [hz]
        rfl

theorem rangeStep_zero_closed (total cs : Nat) (h : 0 < cs) :
    rangeStep 0 total cs = (List.range ((total + cs - 1) / cs)).map (fun j => j * cs) := by
  have := rangeStep_closed cs h total 0 total (by omega)
  simpa using this

theorem split_pdf_closed (stem : String) (total cs : Nat) (h0 : 0 < cs) (hlt : cs < total) :
    split_pdf stem total cs = .chunks ((List.range ((total + cs - 1) / cs)).map
      (fun k => ⟨k * cs, min (k * cs + cs) total, chunkName stem k⟩)) := by
  unfold split_pdf
  rw [if_neg (by omega), if_neg (by omega)]
  rw [rangeStep_zero_closed total cs h0, List.map_map]
  congr 1
  apply List.map_congr_left
  intro k _
  simp only [Function.comp_apply, Nat.mul_div_cancel _ h0]

theorem ceil_count_pos (total cs : Nat) (h0 : 0 < cs) (ht : 0 < total) :
    (total + cs - 1) / cs = (total - 1) / cs + 1 := by
  rw [show total + cs - 1 = (total - 1) + cs from by omega, Nat.add_div_right _ h0]

/-- C1: when `total_pages` exceeds the chunk size, `split_pdf` produces
`ceil(total_pages / chunk_size)` chunk files; chunk `k` holds exactly pages
`k * chunk_size` up to `min((k+1) * chunk_size, total_pages) - 1`; every page
lies in exactly one chunk; the chunks are in ascending page order; and no
chunk holds more than `chunk_size` pages. -/
theorem C1_split_pdf_chunks (stem : String) (total cs : Nat)
    (h0 : 0 < cs) (hlt : cs < total) : SplitChunksSpec stem total cs := by
  refine ⟨_, split_pdf_closed stem total cs h0 hlt, ?_, ?_, ?_, ?_⟩
  · simp
  · intro k hk
    simp only [List.length_map, List.length_range] at hk
    simp only [List.getElem_map, List.getElem_range, Nat.succ_mul]
    exact ⟨trivial, trivial, trivial, by omega⟩
  · intro p hp
    have hdm := Nat.div_add_mod p cs
    have hmod : p % cs < cs := Nat.mod_lt _ h0
    have hq : p / cs * cs + p % cs = p := by rw [Nat.mul_comm] at hdm; exact hdm
    refine ⟨p / cs, ⟨?_, ?_, ?_⟩, ?_⟩
    · simp only [List.length_map, List.length_range]
      rw [ceil_count_pos total cs h0 (by omega)]
      have h1 : p / cs ≤ (total - 1) / cs := Nat.div_le_div_right (by omega)
      omega
    · exact Nat.div_mul_le_self p cs
    · refine lt_min_iff.mpr ⟨?_, hp⟩
      rw [Nat.succ_mul]
      omega
    · rintro k ⟨_, hle, hlt2⟩
      have h2 : p < (k + 1) * cs := lt_of_lt_of_le hlt2 (min_le_left _ _)
      exact (Nat.div_eq_of_lt_le hle h2).symm
  · intro k1 k2 h1 h2 h12
    simp only [List.length_map, List.length_range] at h1 h2
    simp only [List.getElem_map, List.getElem_range]
    exact mul_lt_mul_of_pos_right h12 h0

theorem C1_split_pdf_chunks_witness :
    0 < 2 ∧ 2 < 3 ∧ SplitChunksSpec "doc" 3 2 :=
  ⟨by decide, by decide, C1_split_pdf_chunks "doc" 3 2 (by decide) (by decide)⟩

/-- C6: a PDF whose page count is at most the chunk size is not split: no
temporary file is created and the returned list is exactly the original
input path; and the chunk boundaries and names are deterministic in the
input document and chunk size. -/
theorem C6_split_pdf_skip (parent : Path) (fileName : String) (total cs : Nat)
    (h : total ≤ cs) : SplitSkipSpec parent fileName total cs := by
  have horig : split_pdf (stemOf fileName) total cs = SplitResult.original := by
    unfold split_pdf
    rw [if_pos h]
  refine ⟨horig, ?_, ?_, ?_⟩
  · unfold split_tempFiles
    rw [horig]
  · unfold filesToProcess
    rw [horig]
  · intro r1 r2 e1 e2
    rw [← e1, ← e2]

theorem C6_split_pdf_skip_witness :
    3 ≤ 25 ∧ SplitSkipSpec ["in"] "a.pdf" 3 25 :=
  ⟨by decide, C6_split_pdf_skip ["in"] "a.pdf" 3 25 (by decide)⟩

/-! ## The chunk loop of `convert_pdf_safely` -/

theorem pdfChunkStep_markdown (df : String) (dir inp : Path) (res : Nat → ConvResult)
    (i : Nat) (f : Path) (acc : ConvOutput) :
    (pdfChunkStep df dir inp res i f acc).markdown =
      match res i with
      | .ok t imgs => acc.markdown ++ rewriteImages df i t imgs ++ "\n\n"
      | .err => acc.markdown := by
  unfold pdfChunkStep
  by_cases h : f ≠ inp <;> cases res i <;> simp [h]

theorem pdfChunkStep_saved (df : String) (dir inp : Path) (res : Nat → ConvResult)
    (i : Nat) (f : Path) (acc : ConvOutput) :
    (pdfChunkStep df dir inp res i f acc).saved =
      match res i with
      | .ok _ imgs => acc.saved ++ imgs.map (fun orig => dir ++ [uniqueName i orig])
      | .err => acc.saved := by
  unfold pdfChunkStep
  by_cases h : f ≠ inp <;> cases res i <;> simp [h]

theorem pdfChunkStep_deleted (df : String) (dir inp : Path) (res : Nat → ConvResult)
    (i : Nat) (f : Path) (acc : ConvOutput) :
    (pdfChunkStep df dir inp res i f acc).deleted =
      acc.deleted ++ if f ≠ inp then [f] else [] := by
  unfold pdfChunkStep
  by_cases h : f ≠ inp <;> cases res i <;> simp [h]

theorem string_append_assoc (a b c : String) : (a ++ b) ++ c = a ++ (b ++ c) := by
  cases a with
  | mk la =>
      cases b with
      | mk lb =>
          cases c with
          | mk lc => exact congrArg String.mk (List.append_assoc la lb lc)

theorem pdfLoop_markdown (df : String) (dir inp : Path) (res : Nat → ConvResult) :
    ∀ (l : List Path) (i : Nat) (acc : ConvOutput),
      (pdfLoop df dir inp res i l acc).markdown =
        acc.markdown ++ concatList ((List.range l.length).filterMap (fun j =>
          match res (i + j) with
          | .ok t imgs => some (rewriteImages df (i + j) t imgs ++ "\n\n")
          | .err => none)) := by
  intro l
  induction l with
  | nil => intro i acc; simp [pdfLoop, concatList, string_append_empty]
  | cons f rest ih =>
      intro i acc
      rw [pdfLoop, ih (i + 1), pdfChunkStep_markdown]
      rw [List.length_cons, List.range_succ_eq_map, List.filterMap_cons, List.filterMap_map]
      have hfix :
          List.filterMap ((fun j =>
            match res (i + j) with
            | ConvResult.ok t imgs => some (rewriteImages df (i + j) t imgs ++ "\n\n")
            | ConvResult.err => none) ∘ Nat.succ) (List.range rest.length) =
          List.filterMap (fun j =>
            match res (i + 1 + j) with
            | ConvResult.ok t imgs => some (rewriteImages df (i + 1 + j) t imgs ++ "\n\n")
            | ConvResult.err => none) (List.range rest.length) := by
        apply List.filterMap_congr
        intro a _
        simp only [Function.comp_apply]
        rw [show i + Nat.succ a = i + 1 + a from by omega]
      rw [hfix]
      cases hres : res (i + 0) with
      | ok t imgs =>
          rw [Nat.add_zero] at hres
          simp only [hres, Nat.add_zero, concatList, string_append_assoc]
      | err =>
          rw [Nat.add_zero] at hres
          simp only [hres, Nat.add_zero]

theorem pdfLoop_saved (df : String) (dir inp : Path) (res : Nat → ConvResult) :
    ∀ (l : List Path) (i : Nat) (acc : ConvOutput),
      (pdfLoop df dir inp res i l acc).saved =
        acc.saved ++ ((List.range l.length).map (fun j =>
          match res (i + j) with
          | .ok _ imgs => imgs.map (fun orig => dir ++ [uniqueName (i + j) orig])
          | .err => ([] : List Path))).flatten := by
  intro l
  induction l with
  | nil => intro i acc; simp [pdfLoop]
  | cons f rest ih =>
      intro i acc
      rw [pdfLoop, ih (i + 1), pdfChunkStep_saved]
      rw [List.length_cons, List.range_succ_eq_map, List.map_cons, List.map_map]
      have hfix :
          List.map ((fun j =>
            match res (i + j) with
            | ConvResult.ok _ imgs => imgs.map (fun orig => dir ++ [uniqueName (i + j) orig])
            | ConvResult.err => ([] : List Path)) ∘ Nat.succ) (List.range rest.length) =
          List.map (fun j =>
            match res (i + 1 + j) with
            | ConvResult.ok _ imgs => imgs.map (fun orig => dir ++ [uniqueName (i + 1 + j) orig])
            | ConvResult.err => ([] : List Path)) (List.range rest.length) := by
        apply List.map_congr_left
        intro a _
        simp only [Function.comp_apply]
        rw [show i + Nat.succ a = i + 1 + a from by omega]
      rw [hfix]
      cases hres : res (i + 0) with
      | ok t imgs =>
          rw [Nat.add_zero] at hres
          simp only [hres, Nat.add_zero, List.flatten_cons, List.append_assoc]
      | err =>
          rw [Nat.add_zero] at hres
          simp only [hres, Nat.add_zero, List.flatten_cons, List.nil_append]

theorem pdfLoop_deleted (df : String) (dir inp : Path) (res : Nat → ConvResult) :
    ∀ (l : List Path) (i : Nat) (acc : ConvOutput),
      (pdfLoop df dir inp res i l acc).deleted =
        acc.deleted ++ l.filter (fun f => f ≠ inp) := by
  intro l
  induction l with
  | nil => intro i acc; simp [pdfLoop]
  | cons f rest ih =>
      intro i acc
      rw [pdfLoop, ih (i + 1), pdfChunkStep_deleted, List.filter_cons]
      by_cases h : f ≠ inp
      · simp [h]
      · simp [h]

/-- C9: `convert_pdf_safely` never deletes the original input PDF: the
`finally` deletion is guarded by `current_file != input_path`, on every
execution path (split, no split, chunk success or failure). -/
theorem C9_input_never_deleted (parent outDir : Path) (fileName : String)
    (total cs : Nat) (res : Nat → ConvResult) :
    parent ++ [fileName] ∉ (convert_pdf_safely parent fileName outDir total cs res).deleted := by
  unfold convert_pdf_safely
  rw [pdfLoop_deleted]
  intro hmem
  simp only [List.nil_append, List.mem_filter, ne_eq, decide_not] at hmem
  exact (by simpa using hmem.2 : ¬ (parent ++ [fileName] = parent ++ [fileName])) rfl

/-- Every chunk file name satisfies the cleanup script's stray-chunk
predicate: it contains `_temp_chunk_` and ends with `.pdf`. -/
theorem clean_pred_chunkName (stem : String) (k : Nat) :
    clean_pred (chunkName stem k) = true := by
  unfold clean_pred
  rw [Bool.and_eq_true, decide_eq_true_iff, decide_eq_true_iff]
  constructor
  · exact ⟨stem.toList, (toString k).toList ++ (".pdf" : String).toList,
      by simp [chunkName, string_toList_append, List.append_assoc]⟩
  · exact ⟨stem.toList ++ ("_temp_chunk_" : String).toList ++ (toString k).toList,
      by simp [chunkName, string_toList_append, List.append_assoc]⟩

theorem chunkPath_ne_inputPath (parent : Path) (fileName : String) (k : Nat) :
    parent ++ [chunkName (stemOf fileName) k] ≠ parent ++ [fileName] := by
  intro h
  have h2 := List.append_cancel_left h
  injection h2 with h1 _
  exact chunkName_ne_fileName fileName k h1

/-- C8: every temporary chunk file name contains `_temp_chunk_` and ends
with `.pdf` — exactly the predicate `cleanup.py` uses — and
`convert_pdf_safely` deletes every temp chunk in its `finally` block,
whether the chunk's conversion succeeded or failed. -/
theorem C8_temp_chunk_lifecycle (parent outDir : Path) (fileName : String)
    (total cs : Nat) (h0 : 0 < cs) (hlt : cs < total) :
    TempCleanupSpec parent outDir fileName total cs := by
  constructor
  · intro name hname
    unfold split_tempFiles at hname
    rw [split_pdf_closed _ _ _ h0 hlt] at hname
    simp only [List.map_map, List.mem_map, List.mem_range, Function.comp_apply] at hname
    obtain ⟨k, _, hk⟩ := hname
    rw [← hk]
    exact clean_pred_chunkName (stemOf fileName) k
  · intro res
    unfold convert_pdf_safely
    rw [pdfLoop_deleted]
    rw [List.nil_append]
    apply List.filter_eq_self.mpr
    intro p hp
    unfold filesToProcess at hp
    rw [split_pdf_closed _ _ _ h0 hlt] at hp
    simp only [List.map_map, List.mem_map, List.mem_range, Function.comp_apply] at hp
    obtain ⟨k, _, hk⟩ := hp
    simp only [ne_eq, decide_eq_true_iff]
    rw [← hk]
    exact chunkPath_ne_inputPath parent fileName k

theorem C8_temp_chunk_lifecycle_witness :
    0 < 2 ∧ 2 < 3 ∧ TempCleanupSpec ["in"] ["out"] "doc.pdf" 3 2 :=
  ⟨by decide, by decide, C8_temp_chunk_lifecycle ["in"] ["out"] "doc.pdf" 3 2
    (by decide) (by decide)⟩

/-- C4 (amended): every image extracted from chunk `i` is saved as
`chunk_<i>_<original-filename>` inside the `images/<folder>/` subfolder of
the current output directory, where `<folder>` is the input file's stem
with each space replaced by an underscore; and each image's original
filename is replaced throughout the chunk's markdown text by the relative
link `images/<folder>/chunk_<i>_<original-filename>`. -/
theorem C4_images_saved_and_linked (parent outDir : Path) (fileName : String)
    (total cs : Nat) (res : Nat → ConvResult) :
    (convert_pdf_safely parent fileName outDir total cs res).saved =
      ((List.range (filesToProcess parent fileName total cs).length).map (fun j =>
        match res j with
        | ConvResult.ok _ imgs => imgs.map (fun orig =>
            (outDir ++ ["images", docFolderName (stemOf fileName)]) ++ [uniqueName j orig])
        | ConvResult.err => ([] : List Path))).flatten ∧
    (∀ i text orig,
      rewriteImages (docFolderName (stemOf fileName)) i text [orig] =
        text.replace orig
          ("images/" ++ docFolderName (stemOf fileName) ++ "/" ++ uniqueName i orig)) := by
  constructor
  · unfold convert_pdf_safely
    rw [pdfLoop_saved]
    simp only [List.nil_append, Nat.zero_add]
  · intro i text orig
    rfl

/-- Counterexample to C4 as stated: for the input `a b.pdf` the images
subfolder is `images/a_b/`, not `images/<stem>/` — the folder name is the
stem with spaces replaced by underscores, which differs from the stem. -/
theorem C4_stem_space_counterexample :
    (convert_pdf_safely ["in"] "a b.pdf" ["out"] 1 25 resOneImage).saved =
      [["out", "images", "a_b", "chunk_0_x.png"]] ∧
    docFolderName (stemOf "a b.pdf") ≠ stemOf "a b.pdf" := by
  constructor
  · decide
  · decide

/-! ## Trace monotonicity of the directory walks -/

theorem mem_cli_fileStep (source dest : Path) (existing : List Path) (o : Oracle)
    (relDir : Path) (tr : List FsEvent) (f : String) (ev : FsEvent) (h : ev ∈ tr) :
    ev ∈ cli_fileStep source dest existing o relDir tr f := by
  simp only [cli_fileStep]
  by_cases hc : (dest ++ relDir) ++ [outName f] ∈ existing ∨
      (dest ++ relDir) ++ [outName f] ∈ writtenPaths tr
  · rw [if_pos hc]
    exact List.mem_append_left _ h
  · rw [if_neg hc]
    cases hcv : cli_convert o ((source ++ relDir) ++ [f]) f with
    | some c =>
        dsimp only
        by_cases hce : c = ""
        · rw [if_pos hce]
          exact h
        · rw [if_neg hce]
          exact List.mem_append_left _ h
    | none => exact h

theorem mem_cli_filesFold (source dest : Path) (existing : List Path) (o : Oracle)
    (relDir : Path) (ev : FsEvent) :
    ∀ (fs : List String) (tr : List FsEvent), ev ∈ tr →
      ev ∈ fs.foldl (cli_fileStep source dest existing o relDir) tr := by
  intro fs
  induction fs with
  | nil => intro tr h; exact h
  | cons f rest ih =>
      intro tr h
      rw [List.foldl_cons]
      exact ih _ (mem_cli_fileStep source dest existing o relDir tr f ev h)

theorem mem_cli_dirStep (source dest : Path) (existing : List Path) (o : Oracle)
    (tr : List FsEvent) (e : WalkEntry) (ev : FsEvent) (h : ev ∈ tr) :
    ev ∈ cli_dirStep source dest existing o tr e := by
  unfold cli_dirStep
  exact mem_cli_filesFold source dest existing o e.relDir ev e.files _
    (List.mem_append_left _ h)

theorem mkdir_mem_cli_dirStep (source dest : Path) (existing : List Path) (o : Oracle)
    (tr : List FsEvent) (e : WalkEntry) :
    FsEvent.mkdir (dest ++ e.relDir) ∈ cli_dirStep source dest existing o tr e := by
  unfold cli_dirStep
  exact mem_cli_filesFold source dest existing o e.relDir _ e.files _
    (List.mem_append_right _ (by simp))

theorem mem_cli_walkFold (source dest : Path) (existing : List Path) (o : Oracle)
    (ev : FsEvent) :
    ∀ (walk : List WalkEntry) (tr : List FsEvent), ev ∈ tr →
      ev ∈ walk.foldl (cli_dirStep source dest existing o) tr := by
  intro walk
  induction walk with
  | nil => intro tr h; exact h
  | cons e rest ih =>
      intro tr h
      rw [List.foldl_cons]
      exact ih _ (mem_cli_dirStep source dest existing o tr e ev h)

theorem mkdir_mem_cli_run (source dest : Path) (existing : List Path) (o : Oracle)
    (walk : List WalkEntry) (e : WalkEntry) (he : e ∈ walk) :
    FsEvent.mkdir (dest ++ e.relDir) ∈ cli_run source dest existing o walk := by
  unfold cli_run
  have haux : ∀ (w : List WalkEntry) (tr : List FsEvent), e ∈ w →
      FsEvent.mkdir (dest ++ e.relDir) ∈ w.foldl (cli_dirStep source dest existing o) tr := by
    intro w
    induction w with
    | nil => intro tr h; exact absurd h (List.not_mem_nil _)
    | cons e0 rest ih =>
        intro tr h
        rw [List.foldl_cons]
        rcases List.mem_cons.mp h with heq | hmem
        · subst heq
          exact mem_cli_walkFold source dest existing o _ rest _
            (mkdir_mem_cli_dirStep source dest existing o tr e)
        · exact ih _ hmem
  exact haux walk [] he

theorem mem_gui_fileStep (source dest : Path) (o : Oracle) (relDir : Path)
    (tr : List FsEvent) (f : String) (ev : FsEvent) (h : ev ∈ tr) :
    ev ∈ gui_fileStep source dest o relDir tr f := by
  unfold gui_fileStep
  exact List.mem_append_left _ h

theorem mem_gui_filesFold (source dest : Path) (o : Oracle) (relDir : Path)
    (ev : FsEvent) :
    ∀ (fs : List String) (tr : List FsEvent), ev ∈ tr →
      ev ∈ fs.foldl (gui_fileStep source dest o relDir) tr := by
  intro fs
  induction fs with
  | nil => intro tr h; exact h
  | cons f rest ih =>
      intro tr h
      rw [List.foldl_cons]
      exact ih _ (mem_gui_fileStep source dest o relDir tr f ev h)

theorem mem_gui_dirStep (source dest : Path) (o : Oracle)
    (tr : List FsEvent) (e : WalkEntry) (ev : FsEvent) (h : ev ∈ tr) :
    ev ∈ gui_dirStep source dest o tr e := by
  unfold gui_dirStep
  exact mem_gui_filesFold source dest o e.relDir ev e.files _ (List.mem_append_left _ h)

theorem mkdir_mem_gui_dirStep (source dest : Path) (o : Oracle)
    (tr : List FsEvent) (e : WalkEntry) :
    FsEvent.mkdir (dest ++ e.relDir) ∈ gui_dirStep source dest o tr e := by
  unfold gui_dirStep
  exact mem_gui_filesFold source dest o e.relDir _ e.files _
    (List.mem_append_right _ (by simp))

theorem mem_gui_walkFold (source dest : Path) (o : Oracle) (ev : FsEvent) :
    ∀ (walk : List WalkEntry) (tr : List FsEvent), ev ∈ tr →
      ev ∈ walk.foldl (gui_dirStep source dest o) tr := by
  intro walk
  induction walk with
  | nil => intro tr h; exact h
  | cons e rest ih =>
      intro tr h
      rw [List.foldl_cons]
      exact ih _ (mem_gui_dirStep source dest o tr e ev h)

theorem mkdir_mem_gui_run (source dest : Path) (o : Oracle)
    (walk : List WalkEntry) (e : WalkEntry) (he : e ∈ walk) :
    FsEvent.mkdir (dest ++ e.relDir) ∈ gui_run source dest o walk := by
  unfold gui_run
  have haux : ∀ (w : List WalkEntry) (tr : List FsEvent), e ∈ w →
      FsEvent.mkdir (dest ++ e.relDir) ∈ w.foldl (gui_dirStep source dest o) tr := by
    intro w
    induction w with
    | nil => intro tr h; exact absurd h (List.not_mem_nil _)
    | cons e0 rest ih =>
        intro tr h
        rw [List.foldl_cons]
        rcases List.mem_cons.mp h with heq | hmem
        · subst heq
          exact mem_gui_walkFold source dest o _ rest _
            (mkdir_mem_gui_dirStep source dest o tr e)
        · exact ih _ hmem
  exact haux walk [] he

/-- C5: the markdown `convert_pdf_safely` returns is the concatenation, in
chunk order, of the (image-rewritten) texts of exactly the chunks whose
conversion succeeded, each followed by two newlines — a failed chunk
contributes nothing and processing continues — and no per-file outcome
stops the walk over the remaining directories of the tree. -/
theorem C5_failed_chunks_skipped (parent outDir : Path) (fileName : String)
    (total cs : Nat) (res : Nat → ConvResult) :
    (convert_pdf_safely parent fileName outDir total cs res).markdown =
      concatList ((List.range (filesToProcess parent fileName total cs).length).filterMap
        (fun j =>
          match res j with
          | ConvResult.ok t imgs =>
              some (rewriteImages (docFolderName (stemOf fileName)) j t imgs ++ "\n\n")
          | ConvResult.err => none)) ∧
    WalkContinuesSpec := by
  constructor
  · unfold convert_pdf_safely
    rw [pdfLoop_markdown]
    simp only [Nat.zero_add]
    rfl
  · intro source dest existing o walk e he
    exact ⟨mkdir_mem_cli_run source dest existing o walk e he,
      mkdir_mem_gui_run source dest o walk e he⟩

/-! ## Delta characterizations of the walks -/

theorem cli_fileStep_delta (source dest : Path) (existing : List Path) (o : Oracle)
    (relDir : Path) (tr : List FsEvent) (f : String) :
    ∃ δ, cli_fileStep source dest existing o relDir tr f = tr ++ δ ∧
      ∀ p c, FsEvent.write p c ∈ δ →
        p = (dest ++ relDir) ++ [outName f] ∧
        cli_convert o ((source ++ relDir) ++ [f]) f = some c ∧ c ≠ "" ∧ p ∉ existing := by
  simp only [cli_fileStep]
  by_cases hc : (dest ++ relDir) ++ [outName f] ∈ existing ∨
      (dest ++ relDir) ++ [outName f] ∈ writtenPaths tr
  · rw [if_pos hc]
    refine ⟨[FsEvent.skip ((dest ++ relDir) ++ [outName f])], rfl, ?_⟩
    intro p c h
    simp at h
  · rw [if_neg hc]
    push_neg at hc
    cases hcv : cli_convert o ((source ++ relDir) ++ [f]) f with
    | some c0 =>
        dsimp only
        by_cases hce : c0 = ""
        · rw [if_pos hce]
          refine ⟨[], (List.append_nil tr).symm, ?_⟩
          intro p c h
          simp at h
        · rw [if_neg hce]
          refine ⟨[FsEvent.write ((dest ++ relDir) ++ [outName f]) c0], rfl, ?_⟩
          intro p c h
          simp only [List.mem_singleton, FsEvent.write.injEq] at h
          obtain ⟨hp, hc0⟩ := h
          subst hp
          subst hc0
          exact ⟨rfl, rfl, hce, hc.1⟩
    | none =>
        refine ⟨[], (List.append_nil tr).symm, ?_⟩
        intro p c h
        simp at h

theorem cli_filesFold_delta (source dest : Path) (existing : List Path) (o : Oracle)
    (relDir : Path) :
    ∀ (fs : List String) (tr : List FsEvent),
      ∃ Δ, fs.foldl (cli_fileStep source dest existing o relDir) tr = tr ++ Δ ∧
        ∀ p c, FsEvent.write p c ∈ Δ →
          ∃ f ∈ fs, p = (dest ++ relDir) ++ [outName f] ∧
            cli_convert o ((source ++ relDir) ++ [f]) f = some c ∧ c ≠ "" ∧ p ∉ existing := by
  intro fs
  induction fs with
  | nil =>
      intro tr
      refine ⟨[], (List.append_nil tr).symm, ?_⟩
      intro p c h
      simp at h
  | cons f rest ih =>
      intro tr
      obtain ⟨δ, hδ, hδw⟩ := cli_fileStep_delta source dest existing o relDir tr f
      obtain ⟨Δ, hΔ, hΔw⟩ := ih (tr ++ δ)
      refine ⟨δ ++ Δ, ?_, ?_⟩
      · rw [List.foldl_cons, hδ, hΔ, List.append_assoc]
      · intro p c h
        rcases List.mem_append.mp h with h1 | h2
        · obtain ⟨hp, hcv, hne, hnex⟩ := hδw p c h1
          exact ⟨f, List.mem_cons_self f rest, hp, hcv, hne, hnex⟩
        · obtain ⟨f0, hf0, rest0⟩ := hΔw p c h2
          exact ⟨f0, List.mem_cons_of_mem f hf0, rest0⟩

theorem cli_dirStep_delta (source dest : Path) (existing : List Path) (o : Oracle)
    (tr : List FsEvent) (e : WalkEntry) :
    ∃ Δ, cli_dirStep source dest existing o tr e =
        tr ++ FsEvent.mkdir (dest ++ e.relDir) :: Δ ∧
      ∀ p c, FsEvent.write p c ∈ Δ →
        ∃ f ∈ e.files, p = (dest ++ e.relDir) ++ [outName f] ∧
          cli_convert o ((source ++ e.relDir) ++ [f]) f = some c ∧ c ≠ "" ∧ p ∉ existing := by
  obtain ⟨Δ, hΔ, hΔw⟩ := cli_filesFold_delta source dest existing o e.relDir e.files
    (tr ++ [FsEvent.mkdir (dest ++ e.relDir)])
  refine ⟨Δ, ?_, hΔw⟩
  unfold cli_dirStep
  rw [hΔ, List.append_assoc]
  rfl

theorem cli_walkFold_delta (source dest : Path) (existing : List Path) (o : Oracle) :
    ∀ (walk : List WalkEntry) (tr : List FsEvent),
      ∃ Δ, walk.foldl (cli_dirStep source dest existing o) tr = tr ++ Δ ∧
        ∀ p c, FsEvent.write p c ∈ Δ →
          ∃ e ∈ walk, ∃ f ∈ e.files, p = (dest ++ e.relDir) ++ [outName f] ∧
            cli_convert o ((source ++ e.relDir) ++ [f]) f = some c ∧ c ≠ "" ∧ p ∉ existing := by
  intro walk
  induction walk with
  | nil =>
      intro tr
      refine ⟨[], (List.append_nil tr).symm, ?_⟩
      intro p c h
      simp at h
  | cons e rest ih =>
      intro tr
      obtain ⟨δ, hδ, hδw⟩ := cli_dirStep_delta source dest existing o tr e
      obtain ⟨Δ, hΔ, hΔw⟩ := ih (cli_dirStep source dest existing o tr e)
      refine ⟨(FsEvent.mkdir (dest ++ e.relDir) :: δ) ++ Δ, ?_, ?_⟩
      · rw [List.foldl_cons, hΔ, hδ, List.append_assoc]
      · intro p c h
        rcases List.mem_append.mp h with h1 | h2
        · rcases List.mem_cons.mp h1 with h1 | h1
          · exact absurd h1 (by simp)
          · obtain ⟨f0, hf0, rest0⟩ := hδw p c h1
            exact ⟨e, List.mem_cons_self e rest, f0, hf0, rest0⟩
        · obtain ⟨e0, he0, rest0⟩ := hΔw p c h2
          exact ⟨e0, List.mem_cons_of_mem e he0, rest0⟩

theorem cli_run_writes (source dest : Path) (existing : List Path) (o : Oracle)
    (walk : List WalkEntry) (p : Path) (c : String)
    (h : FsEvent.write p c ∈ cli_run source dest existing o walk) :
    ∃ e ∈ walk, ∃ f ∈ e.files, p = (dest ++ e.relDir) ++ [outName f] ∧
      cli_convert o ((source ++ e.relDir) ++ [f]) f = some c ∧ c ≠ "" ∧ p ∉ existing := by
  obtain ⟨Δ, hΔ, hΔw⟩ := cli_walkFold_delta source dest existing o walk []
  unfold cli_run at h
  rw [hΔ, List.nil_append] at h
  exact hΔw p c h

/-! ## Closed form of the GUI walk -/

theorem gui_filesFold_closed (source dest : Path) (o : Oracle) (relDir : Path) :
    ∀ (fs : List String) (tr : List FsEvent),
      fs.foldl (gui_fileStep source dest o relDir) tr =
        tr ++ fs.map (fun f => FsEvent.write ((dest ++ relDir) ++ [outName f])
          (gui_content o ((source ++ relDir) ++ [f]) f)) := by
  intro fs
  induction fs with
  | nil => intro tr; simp
  | cons f rest ih =>
      intro tr
      rw [List.foldl_cons, ih]
      simp [gui_fileStep, List.append_assoc]

theorem gui_dirStep_closed (source dest : Path) (o : Oracle)
    (tr : List FsEvent) (e : WalkEntry) :
    gui_dirStep source dest o tr e =
      tr ++ FsEvent.mkdir (dest ++ e.relDir) ::
        e.files.map (fun f => FsEvent.write ((dest ++ e.relDir) ++ [outName f])
          (gui_content o ((source ++ e.relDir) ++ [f]) f)) := by
  unfold gui_dirStep
  rw [gui_filesFold_closed]
  simp [List.append_assoc]

theorem gui_run_closed (source dest : Path) (o : Oracle) :
    ∀ (walk : List WalkEntry) (tr : List FsEvent),
      walk.foldl (gui_dirStep source dest o) tr =
        tr ++ (walk.map (fun e =>
          FsEvent.mkdir (dest ++ e.relDir) ::
            e.files.map (fun f => FsEvent.write ((dest ++ e.relDir) ++ [outName f])
              (gui_content o ((source ++ e.relDir) ++ [f]) f)))).flatten := by
  intro walk
  induction walk with
  | nil => intro tr; simp
  | cons e rest ih =>
      intro tr
      rw [List.foldl_cons, ih, gui_dirStep_closed]
      simp [List.flatten_cons, List.append_assoc]

theorem filterMap_some_comp {α β : Type} (g : α → β) (l : List α) :
    l.filterMap (fun a => some (g a)) = l.map g := by
  induction l with
  | nil => rfl
  | cons a t ih => simp [List.filterMap_cons, ih]

theorem writtenPaths_append (t1 t2 : List FsEvent) :
    writtenPaths (t1 ++ t2) = writtenPaths t1 ++ writtenPaths t2 := by
  unfold writtenPaths
  exact List.filterMap_append _ _ _

theorem mem_writtenPaths_iff (p : Path) (tr : List FsEvent) :
    p ∈ writtenPaths tr ↔ ∃ c, FsEvent.write p c ∈ tr := by
  unfold writtenPaths
  rw [List.mem_filterMap]
  constructor
  · rintro ⟨ev, hev, hm⟩
    cases ev with
    | write q c =>
        simp only [Option.some.injEq] at hm
        subst hm
        exact ⟨c, hev⟩
    | mkdir q => simp at hm
    | skip q => simp at hm
  · rintro ⟨c, hc⟩
    exact ⟨FsEvent.write p c, hc, rfl⟩

/-- The GUI writes exactly the mirrored output path of every input file, in
walk order. -/
theorem gui_writtenPaths_eq (source dest : Path) (o : Oracle) (walk : List WalkEntry) :
    writtenPaths (gui_run source dest o walk) = allOutPaths dest walk := by
  unfold gui_run
  rw [gui_run_closed, List.nil_append]
  unfold allOutPaths
  induction walk with
  | nil => rfl
  | cons e rest ih =>
      rw [List.map_cons, List.flatten_cons, writtenPaths_append, ih,
        List.map_cons, List.flatten_cons]
      congr 1
      unfold writtenPaths
      rw [List.filterMap_cons]
      dsimp only
      rw [List.filterMap_map]
      exact filterMap_some_comp _ _

theorem gui_run_writes (source dest : Path) (o : Oracle) (walk : List WalkEntry)
    (p : Path) (c : String) (h : FsEvent.write p c ∈ gui_run source dest o walk) :
    ∃ e ∈ walk, ∃ f ∈ e.files, p = (dest ++ e.relDir) ++ [outName f] := by
  have hp : p ∈ writtenPaths (gui_run source dest o walk) :=
    (mem_writtenPaths_iff _ _).mpr ⟨c, h⟩
  rw [gui_writtenPaths_eq] at hp
  unfold allOutPaths at hp
  rw [List.mem_flatten] at hp
  obtain ⟨blk, hblk, hpblk⟩ := hp
  obtain ⟨e, he, hbe⟩ := List.mem_map.mp hblk
  rw [← hbe] at hpblk
  obtain ⟨f, hf, hpf⟩ := List.mem_map.mp hpblk
  exact ⟨e, he, f, hf, hpf.symm⟩

/-! ## Nodup bookkeeping for the mirrored output paths -/

theorem nodup_middle_not_mem {α : Type} (X Y : List α) (a : α)
    (h : (X ++ a :: Y).Nodup) : a ∉ X ∧ a ∉ Y := by
  rw [List.nodup_append] at h
  obtain ⟨_, h2, hdisj⟩ := h
  exact ⟨fun hX => hdisj hX (List.mem_cons_self a Y), (List.nodup_cons.mp h2).1⟩

theorem allOutPaths_append (dest : Path) (w1 w2 : List WalkEntry) :
    allOutPaths dest (w1 ++ w2) = allOutPaths dest w1 ++ allOutPaths dest w2 := by
  unfold allOutPaths
  rw [List.map_append, List.flatten_append]

theorem allOutPaths_cons (dest : Path) (e : WalkEntry) (w : List WalkEntry) :
    allOutPaths dest (e :: w) =
      e.files.map (fun f => (dest ++ e.relDir) ++ [outName f]) ++ allOutPaths dest w := by
  unfold allOutPaths
  rw [List.map_cons, List.flatten_cons]

theorem mem_allOutPaths_of (dest : Path) (walk : List WalkEntry) (e : WalkEntry)
    (f : String) (he : e ∈ walk) (hf : f ∈ e.files) :
    (dest ++ e.relDir) ++ [outName f] ∈ allOutPaths dest walk := by
  unfold allOutPaths
  rw [List.mem_flatten]
  exact ⟨_, List.mem_map_of_mem _ he, List.mem_map_of_mem _ hf⟩

theorem cli_fileStep_eq (source dest : Path) (existing : List Path) (o : Oracle)
    (relDir : Path) (tr : List FsEvent) (f : String) :
    cli_fileStep source dest existing o relDir tr f =
      if (dest ++ relDir) ++ [outName f] ∈ existing ∨
          (dest ++ relDir) ++ [outName f] ∈ writtenPaths tr then
        tr ++ [FsEvent.skip ((dest ++ relDir) ++ [outName f])]
      else
        match cli_convert o ((source ++ relDir) ++ [f]) f with
        | some c =>
            if c = "" then tr
            else tr ++ [FsEvent.write ((dest ++ relDir) ++ [outName f]) c]
        | none => tr := rfl

theorem cli_dirStep_eq (source dest : Path) (existing : List Path) (o : Oracle)
    (tr : List FsEvent) (e : WalkEntry) :
    cli_dirStep source dest existing o tr e =
      e.files.foldl (cli_fileStep source dest existing o e.relDir)
        (tr ++ [FsEvent.mkdir (dest ++ e.relDir)]) := rfl

/-- C2 (amended): the GUI writes exactly one `.md` per input file at the
mirrored relative path with the extension replaced by `.md`; the CLI writes
only at such mirrored paths, only when the conversion produced non-empty
content and the output did not already exist, and — when the mirrored
output paths are distinct and fresh — it does write every input file whose
conversion yields non-empty content. -/
theorem C2_one_output_per_input (source dest : Path) (existing : List Path)
    (o : Oracle) (walk : List WalkEntry) :
    MirroredOutputsSpec source dest existing o walk := by
  refine ⟨gui_writtenPaths_eq source dest o walk, ?_, ?_⟩
  · intro p c h
    exact cli_run_writes source dest existing o walk p c h
  · intro hnodup e he f hf hfresh c hconv hcne
    obtain ⟨w1, w2, hwalk⟩ := List.append_of_mem he
    obtain ⟨fs1, fs2, hfiles⟩ := List.append_of_mem hf
    subst hwalk
    have hdecomp : allOutPaths dest (w1 ++ e :: w2) =
        (allOutPaths dest w1 ++
          fs1.map (fun f0 => (dest ++ e.relDir) ++ [outName f0])) ++
        ((dest ++ e.relDir) ++ [outName f]) ::
          (fs2.map (fun f0 => (dest ++ e.relDir) ++ [outName f0]) ++
            allOutPaths dest w2) := by
      rw [allOutPaths_append, allOutPaths_cons, hfiles]
      simp [List.map_append, List.append_assoc]
    rw [hdecomp] at hnodup
    have hnm := nodup_middle_not_mem _ _ _ hnodup
    unfold cli_run
    rw [List.foldl_append, List.foldl_cons]
    apply mem_cli_walkFold
    rw [cli_dirStep_eq, hfiles, List.foldl_append, List.foldl_cons]
    apply mem_cli_filesFold
    have hnotwritten : (dest ++ e.relDir) ++ [outName f] ∉
        writtenPaths (fs1.foldl (cli_fileStep source dest existing o e.relDir)
          (w1.foldl (cli_dirStep source dest existing o) [] ++
            [FsEvent.mkdir (dest ++ e.relDir)])) := by
      intro hmem
      obtain ⟨c', hc'⟩ := (mem_writtenPaths_iff _ _).mp hmem
      obtain ⟨Δ1, hΔ1, hΔ1w⟩ := cli_filesFold_delta source dest existing o e.relDir fs1
        (w1.foldl (cli_dirStep source dest existing o) [] ++
          [FsEvent.mkdir (dest ++ e.relDir)])
      rw [hΔ1] at hc'
      rcases List.mem_append.mp hc' with h1 | h2
      · rcases List.mem_append.mp h1 with h0 | hmk
        · obtain ⟨e0, he0, f0, hf0, hp0, _⟩ :=
            cli_run_writes source dest existing o w1 _ _ h0
          exact hnm.1 (List.mem_append_left _
            (hp0 ▸ mem_allOutPaths_of dest w1 e0 f0 he0 hf0))
        · simp at hmk
      · obtain ⟨f0, hf0, hp0, _⟩ := hΔ1w _ _ h2
        exact hnm.1 (List.mem_append_right _
          (hp0 ▸ List.mem_map_of_mem _ hf0))
    rw [cli_fileStep_eq]
    rw [if_neg (not_or.mpr ⟨hfresh, hnotwritten⟩)]
    rw [hconv]
    dsimp only
    rw [if_neg hcne]
    exact List.mem_append_right _ (by simp)

/-- Counterexample to C2 as stated: an empty `.txt` input (a recognized
extension) produces no output file at all in the CLI pipeline, because
`if markdown_content:` rejects the empty string. -/
theorem C2_empty_txt_counterexample :
    cli_run ["in"] ["out"] [] oracleEmptyTxt [⟨[], ["a.txt"]⟩] =
      [FsEvent.mkdir ["out"]] ∧
    writtenPaths (cli_run ["in"] ["out"] [] oracleEmptyTxt [⟨[], ["a.txt"]⟩]) = [] := by
  constructor
  · decide
  · decide

/-! ## The mkdir-before-write invariant -/

theorem gui_dirStep_delta (source dest : Path) (o : Oracle)
    (tr : List FsEvent) (e : WalkEntry) :
    ∃ Δ, gui_dirStep source dest o tr e =
        tr ++ FsEvent.mkdir (dest ++ e.relDir) :: Δ ∧
      ∀ p c, FsEvent.write p c ∈ Δ →
        ∃ f ∈ e.files, p = (dest ++ e.relDir) ++ [outName f] := by
  refine ⟨e.files.map (fun f => FsEvent.write ((dest ++ e.relDir) ++ [outName f])
    (gui_content o ((source ++ e.relDir) ++ [f]) f)), gui_dirStep_closed _ _ _ _ _, ?_⟩
  intro p c h
  obtain ⟨f, hf, hw⟩ := List.mem_map.mp h
  simp only [FsEvent.write.injEq] at hw
  exact ⟨f, hf, hw.1.symm⟩

theorem mbw_cli_walkFold (source dest : Path) (existing : List Path) (o : Oracle) :
    ∀ (walk : List WalkEntry) (tr : List FsEvent), MkdirBeforeWrites tr →
      MkdirBeforeWrites (walk.foldl (cli_dirStep source dest existing o) tr) := by
  intro walk
  induction walk with
  | nil => intro tr h; exact h
  | cons e rest ih =>
      intro tr h
      rw [List.foldl_cons]
      apply ih
      obtain ⟨Δ, hΔ, hΔw⟩ := cli_dirStep_delta source dest existing o tr e
      rw [hΔ]
      intro p c hmem
      rcases List.mem_append.mp hmem with h1 | h2
      · obtain ⟨t1, t2, hsplit, hin⟩ := h p c h1
        refine ⟨t1, t2 ++ FsEvent.mkdir (dest ++ e.relDir) :: Δ, ?_,
          List.mem_append_left _ hin⟩
        rw [hsplit, List.append_assoc]
        rfl
      · rcases List.mem_cons.mp h2 with h2e | h2Δ
        · exact absurd h2e (by simp)
        · obtain ⟨f0, _, hp0, _⟩ := hΔw p c h2Δ
          have hdl : p.dropLast = dest ++ e.relDir := by
            rw [hp0]
            exact List.dropLast_concat
          exact ⟨tr, Δ, by rw [hdl], h2Δ⟩

theorem mbw_gui_walkFold (source dest : Path) (o : Oracle) :
    ∀ (walk : List WalkEntry) (tr : List FsEvent), MkdirBeforeWrites tr →
      MkdirBeforeWrites (walk.foldl (gui_dirStep source dest o) tr) := by
  intro walk
  induction walk with
  | nil => intro tr h; exact h
  | cons e rest ih =>
      intro tr h
      rw [List.foldl_cons]
      apply ih
      obtain ⟨Δ, hΔ, hΔw⟩ := gui_dirStep_delta source dest o tr e
      rw [hΔ]
      intro p c hmem
      rcases List.mem_append.mp hmem with h1 | h2
      · obtain ⟨t1, t2, hsplit, hin⟩ := h p c h1
        refine ⟨t1, t2 ++ FsEvent.mkdir (dest ++ e.relDir) :: Δ, ?_,
          List.mem_append_left _ hin⟩
        rw [hsplit, List.append_assoc]
        rfl
      · rcases List.mem_cons.mp h2 with h2e | h2Δ
        · exact absurd h2e (by simp)
        · obtain ⟨f0, _, hp0⟩ := hΔw p c h2Δ
          have hdl : p.dropLast = dest ++ e.relDir := by
            rw [hp0]
            exact List.dropLast_concat
          exact ⟨tr, Δ, by rw [hdl], h2Δ⟩

/-- C7: the output tree mirrors the input tree, in both pipelines: every
visited input directory's mirror under the destination root is created;
every output file is written only after its parent directory's `mkdir`
appears earlier in the trace; and that parent is the destination mirror of
the relative path of a visited input directory. -/
theorem C7_output_mirrors_input (source dest : Path) (existing : List Path)
    (o : Oracle) (walk : List WalkEntry) :
    MirrorTreeSpec source dest existing o walk := by
  refine ⟨?_, ?_, ?_, ?_, ?_⟩
  · intro e he
    exact ⟨mkdir_mem_cli_run source dest existing o walk e he,
      mkdir_mem_gui_run source dest o walk e he⟩
  · unfold cli_run
    exact mbw_cli_walkFold source dest existing o walk []
      (by intro p c hmem; simp at hmem)
  · unfold gui_run
    exact mbw_gui_walkFold source dest o walk []
      (by intro p c hmem; simp at hmem)
  · intro p c h
    obtain ⟨e, he, f, _, hp, _⟩ := cli_run_writes source dest existing o walk p c h
    refine ⟨e, he, ?_⟩
    rw [hp]
    exact List.dropLast_concat
  · intro p c h
    obtain ⟨e, he, f, _, hp⟩ := gui_run_writes source dest o walk p c h
    refine ⟨e, he, ?_⟩
    rw [hp]
    exact List.dropLast_concat

/-- C10: an input file whose output `.md` already exists is skipped by the
CLI: the trace only records the skip, and no existing output path is ever
written during the run. -/
theorem C10_skip_existing_outputs (source dest : Path) (existing : List Path)
    (o : Oracle) (walk : List WalkEntry) (relDir : Path) (tr : List FsEvent)
    (f : String) (p : Path) (hp : p ∈ existing)
    (hf : (dest ++ relDir) ++ [outName f] ∈ existing) :
    cli_fileStep source dest existing o relDir tr f =
      tr ++ [FsEvent.skip ((dest ++ relDir) ++ [outName f])] ∧
    ∀ c, FsEvent.write p c ∉ cli_run source dest existing o walk := by
  constructor
  · rw [cli_fileStep_eq, if_pos (Or.inl hf)]
  · intro c hmem
    obtain ⟨e0, _, f0, _, _, _, _, hne⟩ :=
      cli_run_writes source dest existing o walk p c hmem
    exact hne hp

theorem C10_skip_existing_outputs_witness :
    (["out", "a.md"] : Path) ∈ [(["out", "a.md"] : Path)] ∧
    ((["out"] : Path) ++ ([] : Path)) ++ [outName "a.txt"] ∈
      [(["out", "a.md"] : Path)] ∧
    (cli_fileStep ["in"] ["out"] [["out", "a.md"]] oracle0 [] [] "a.txt" =
      [] ++ [FsEvent.skip (((["out"] : Path) ++ ([] : Path)) ++ [outName "a.txt"])] ∧
    ∀ c, FsEvent.write ["out", "a.md"] c ∉
      cli_run ["in"] ["out"] [["out", "a.md"]] oracle0 [⟨[], ["a.txt"]⟩]) :=
  ⟨by decide, by decide,
    C10_skip_existing_outputs ["in"] ["out"] [["out", "a.md"]] oracle0
      [⟨[], ["a.txt"]⟩] [] [] "a.txt" ["out", "a.md"] (by decide) (by decide)⟩

/-- C3 (amended): the CLI dispatches on exactly the five extensions `.pdf`,
`.docx`, `.pptx`, `.xlsx`, `.txt` (of the lower-cased suffix), passing a
`.txt` file's read contents through; the GUI dispatches only on the first
four — it has no `.txt` branch, so a `.txt` file is treated like an
unrecognized extension and contributes the empty string. -/
theorem C3_extension_dispatch (f : String) (o : Oracle) (p : Path) :
    (cli_dispatch f = FileKind.pdf ↔ lowerStr (suffixOf f) = ".pdf") ∧
    (cli_dispatch f = FileKind.office ↔
      (lowerStr (suffixOf f) = ".docx" ∨ lowerStr (suffixOf f) = ".pptx" ∨
        lowerStr (suffixOf f) = ".xlsx")) ∧
    (cli_dispatch f = FileKind.txt ↔ lowerStr (suffixOf f) = ".txt") ∧
    (gui_dispatch f = FileKind.pdf ↔ lowerStr (suffixOf f) = ".pdf") ∧
    (gui_dispatch f = FileKind.office ↔
      (lowerStr (suffixOf f) = ".docx" ∨ lowerStr (suffixOf f) = ".pptx" ∨
        lowerStr (suffixOf f) = ".xlsx")) ∧
    gui_dispatch f ≠ FileKind.txt ∧
    (cli_dispatch f = FileKind.txt → cli_convert o p f = o.txtRead p) ∧
    (cli_dispatch f = FileKind.pdf → cli_convert o p f = some (o.pdfResult p)) ∧
    (cli_dispatch f = FileKind.other → cli_convert o p f = none) ∧
    (lowerStr (suffixOf f) = ".txt" → gui_content o p f = "") := by
  have d1 : (".pdf" : String) ≠ ".docx" := by decide
  have d2 : (".pdf" : String) ≠ ".pptx" := by decide
  have d3 : (".pdf" : String) ≠ ".xlsx" := by decide
  have d4 : (".pdf" : String) ≠ ".txt" := by decide
  have d5 : (".docx" : String) ≠ ".txt" := by decide
  have d6 : (".pptx" : String) ≠ ".txt" := by decide
  have d7 : (".xlsx" : String) ≠ ".txt" := by decide
  have d8 : (".docx" : String) ≠ ".pdf" := by decide
  have d9 : (".pptx" : String) ≠ ".pdf" := by decide
  have d10 : (".xlsx" : String) ≠ ".pdf" := by decide
  unfold cli_convert gui_content cli_dispatch gui_dispatch
  dsimp only
  split_ifs with h1 h2 h3
  · simp_all
  · rcases h2 with h | h | h <;> simp_all
  · simp_all
  · simp_all

/-- Counterexample to C3 as stated: on a `.txt` input whose read contents
are `"hello"`, the CLI passes the contents through but the GUI does not —
the GUI has no `.txt` branch and writes an empty file. -/
theorem C3_gui_txt_counterexample :
    cli_dispatch "a.txt" = FileKind.txt ∧
    gui_dispatch "a.txt" = FileKind.other ∧
    oracle0.txtRead ["in", "a.txt"] = some "hello" ∧
    gui_run ["in"] ["out"] oracle0 [⟨[], ["a.txt"]⟩] =
      [FsEvent.mkdir ["out"], FsEvent.write ["out", "a.md"] ""] ∧
    cli_run ["in"] ["out"] [] oracle0 [⟨[], ["a.txt"]⟩] =
      [FsEvent.mkdir ["out"], FsEvent.write ["out", "a.md"] "hello"] := by
  refine ⟨by decide, by decide, rfl, by decide, by decide⟩

end Markforge
